import Mathlib

/-!
Verification of the AVL tree implementation in `src/avl_tree_visualizer.py`
(classes `TreeNode` and `AVLTree`).

The Python tree is embedded shallowly: a `TreeNode` with its `data`, `left`,
`right` and `height` attributes becomes the `Tree.node` constructor; the
absent child (Python `None`) becomes `Tree.leaf`.  Every method of `AVLTree`
that the claims mention is translated into a pure Lean function that follows
the Python control flow line by line.  Heights are stored in the node exactly
as the Python code stores them (the `height` attribute), so stale heights are
representable and the claim that heights are never stale is a real theorem.
-/

namespace AVLTree

/-- A `TreeNode` of the Python code: `data`, `left`, `right`, `height`;
`leaf` stands for the Python `None` reference. -/
inductive Tree : Type where
  | leaf : Tree
  | node : Int → Tree → Tree → Nat → Tree
deriving DecidableEq

/-- Python `_get_height`: `0` for `None`, otherwise the stored `height`
attribute (not recomputed). -/
def getHeight : Tree → Nat
  | .leaf => 0
  | .node _ _ _ h => h

/-- Python `_get_balance`: stored height of the left child minus stored
height of the right child, `0` for `None`. -/
def getBalance : Tree → Int
  | .leaf => 0
  | .node _ l r _ => (getHeight l : Int) - (getHeight r : Int)

/-- The `data` attribute of a node; the `leaf` case returns a default
value.  Python only evaluates `.data` behind short-circuit guards that
force the node to exist (a stored balance factor above 1 forces a left
child and below -1 a right child, stored heights being non-negative), so
the default never decides an outcome the program could reach. -/
def dataOf : Tree → Int
  | .leaf => 0
  | .node x _ _ _ => x

/-- The true recursive height of a subtree: `0` for an absent node,
`1 + max` of the children otherwise.  This is the mathematical height the
spec talks about, independent of the stored `height` attribute. -/
def realHeight : Tree → Nat
  | .leaf => 0
  | .node _ l r _ => 1 + max (realHeight l) (realHeight r)

/-- Balance factor computed from real heights. -/
def realBal : Tree → Int
  | .leaf => 0
  | .node _ l r _ => (realHeight l : Int) - (realHeight r : Int)

/-- In-order key sequence of the tree. -/
def inorder : Tree → List Int
  | .leaf => []
  | .node x l r _ => inorder l ++ x :: inorder r

/-- Python `_left_rotate`: `y = z.right`, `T2 = y.left`, `y.left = z`,
`z.right = T2`, then both heights are recomputed bottom-up.  Python raises
AttributeError when `z.right` is `None` (it reads `z.right.left`); this
total model returns the tree unchanged there.  That error path is
reachable through duplicate-key sequences, so `leftRotateOpt` below models
the raise as `none` and the claims whose scope includes such sequences use
the fallible embedding; the distinct-key theorems prove the required child
exists and never rely on this branch. -/
def leftRotate : Tree → Tree
  | .node zd zl (.node yd yl yr _) _ =>
      let z := Tree.node zd zl yl (1 + max (getHeight zl) (getHeight yl))
      Tree.node yd z yr (1 + max (getHeight z) (getHeight yr))
  | t => t

/-- Python `_right_rotate`: `y = z.left`, `T3 = y.right`, `y.right = z`,
`z.left = T3`, then both heights are recomputed bottom-up.  Python raises
AttributeError when `z.left` is `None`; this total model returns the tree
unchanged there, and `rightRotateOpt` below models the raise as `none`
(the error path is reachable, see the crash theorem for C4). -/
def rightRotate : Tree → Tree
  | .node zd (.node yd yl yr _) zr _ =>
      let z := Tree.node zd yr zr (1 + max (getHeight yr) (getHeight zr))
      Tree.node yd yl z (1 + max (getHeight yl) (getHeight z))
  | t => t

/-- The four rebalancing cases at the end of `_insert_recursive`, checked in
the source order: Left-Left, Right-Right, Left-Right, Right-Left.  The
dispatch compares the inserted value with the data of the relevant child,
exactly as the Python code does. -/
def rebalanceAfterInsert (t : Tree) (d : Int) : Tree :=
  match t with
  | .leaf => .leaf
  | .node x l r h =>
      let bf := getBalance (.node x l r h)
      if 1 < bf ∧ d < dataOf l then rightRotate (.node x l r h)
      else if bf < -1 ∧ dataOf r < d then leftRotate (.node x l r h)
      else if 1 < bf ∧ dataOf l < d then rightRotate (.node x (leftRotate l) r h)
      else if bf < -1 ∧ d < dataOf r then leftRotate (.node x l (rightRotate r) h)
      else .node x l r h

/-- Python `_insert_recursive`.  Note the missing equality case of the
source: `data < root.data` descends left and everything else, including an
equal key, descends right.  After the recursive call the height is
recomputed and the rebalancing cases run. -/
def insertRecursive : Tree → Int → Tree
  | .leaf, d => .node d .leaf .leaf 1
  | .node x l r _, d =>
      if d < x then
        let l' := insertRecursive l d
        rebalanceAfterInsert (.node x l' r (1 + max (getHeight l') (getHeight r))) d
      else
        let r' := insertRecursive r d
        rebalanceAfterInsert (.node x l r' (1 + max (getHeight l) (getHeight r'))) d

/-- Python `_get_min_value_node`: leftmost node of the subtree. -/
def getMinValueNode : Tree → Tree
  | .leaf => .leaf
  | .node x .leaf r h => .node x .leaf r h
  | .node _ (.node ld ll lr lh) _ _ => getMinValueNode (.node ld ll lr lh)

/-- The four rebalancing cases at the end of `_delete_recursive`, checked in
the source order: Left-Left, Left-Right, Right-Right, Right-Left.  Here the
dispatch looks at the balance factor of the child. -/
def rebalanceAfterDelete (t : Tree) : Tree :=
  match t with
  | .leaf => .leaf
  | .node x l r h =>
      let bf := getBalance (.node x l r h)
      if 1 < bf ∧ 0 ≤ getBalance l then rightRotate (.node x l r h)
      else if 1 < bf ∧ getBalance l < 0 then rightRotate (.node x (leftRotate l) r h)
      else if bf < -1 ∧ getBalance r ≤ 0 then leftRotate (.node x l r h)
      else if bf < -1 ∧ 0 < getBalance r then leftRotate (.node x l (rightRotate r) h)
      else .node x l r h

/-- Python `_delete_recursive`.  The one-child and zero-child cases return
the other child immediately (no height update, no rebalancing, exactly as
the early `return temp` in the source); the two-children case copies the
in-order successor data into the node and deletes the successor from the
right subtree, then height update and rebalancing run. -/
def deleteRecursive : Tree → Int → Tree
  | .leaf, _ => .leaf
  | .node x l r _, d =>
      if d < x then
        let l' := deleteRecursive l d
        rebalanceAfterDelete (.node x l' r (1 + max (getHeight l') (getHeight r)))
      else if x < d then
        let r' := deleteRecursive r d
        rebalanceAfterDelete (.node x l r' (1 + max (getHeight l) (getHeight r')))
      else if l = .leaf then r
      else if r = .leaf then l
      else
        let m := dataOf (getMinValueNode r)
        let r' := deleteRecursive r m
        rebalanceAfterDelete (.node m l r' (1 + max (getHeight l) (getHeight r')))

/-- Python `_search_recursive`: pure ordered descent, no side effects. -/
def searchRecursive : Tree → Int → Bool
  | .leaf, _ => false
  | .node x l r _, d =>
      if x = d then true
      else if d < x then searchRecursive l d
      else searchRecursive r d

/-- The while loop of `_collect_nodes_by_level` that appends empty level
lists until index `level` exists. -/
def padTo (levels : List (List Int)) (level : Nat) : List (List Int) :=
  levels ++ List.replicate (level + 1 - levels.length) []

/-- Appending one key to the list stored at a given index
(`levels[level].append(node)` in the source). -/
def appendAt : List (List Int) → Nat → Int → List (List Int)
  | [], _, _ => []
  | ls :: rest, 0, x => (ls ++ [x]) :: rest
  | ls :: rest, n + 1, x => ls :: appendAt rest n x

/-- Python `_collect_nodes_by_level`: record the node at its level, then
recurse into the left subtree and then the right subtree.  Nodes are
represented by their keys. -/
def collectNodesByLevel : Tree → Nat → List (List Int) → List (List Int)
  | .leaf, _, levels => levels
  | .node x l r _, level, levels =>
      collectNodesByLevel r (level + 1)
        (collectNodesByLevel l (level + 1) (appendAt (padTo levels level) level x))

/-- Python `get_nodes_by_level`: empty list for the empty tree, otherwise
the recursive collection starting at level 0 with an empty accumulator. -/
def getNodesByLevel : Tree → List (List Int)
  | .leaf => []
  | .node x l r h => collectNodesByLevel (.node x l r h) 0 []

/-- The keys present at one depth of the tree, left to right (the
specification-side description of one level). -/
def nodesAtDepth : Tree → Nat → List Int
  | .leaf, _ => []
  | .node x _ _ _, 0 => [x]
  | .node _ l r _, d + 1 => nodesAtDepth l d ++ nodesAtDepth r d

/-- The BST property as the spec states it: at every node all keys of the
left subtree are smaller and all keys of the right subtree are larger. -/
def isBST : Tree → Bool
  | .leaf => true
  | .node x l r _ =>
      (inorder l).all (fun k => k < x) && (inorder r).all (fun k => x < k)
        && isBST l && isBST r

/-- The AVL balance property as the spec states it, in terms of real
recursive heights: the two child heights differ by at most one, at every
node. -/
def isBalanced : Tree → Bool
  | .leaf => true
  | .node _ l r _ =>
      decide (((realHeight l : Int) - (realHeight r : Int)).natAbs ≤ 1)
        && isBalanced l && isBalanced r

/-- Every stored height attribute equals the real recursive height of its
subtree. -/
def heightsOk : Tree → Bool
  | .leaf => true
  | .node _ l r h =>
      (h == 1 + max (realHeight l) (realHeight r)) && heightsOk l && heightsOk r

/-- Building a tree by inserting a list of keys in order into the empty
tree, as the scenarios of the spec do. -/
def buildTree (l : List Int) : Tree :=
  l.foldl insertRecursive .leaf

/-- A public mutating operation of the tree: `insert(k)` or `delete(k)`. -/
inductive Op : Type where
  | ins : Int → Op
  | del : Int → Op

/-- Effect of one public operation on the root. -/
def applyOp (t : Tree) : Op → Tree
  | .ins d => insertRecursive t d
  | .del d => deleteRecursive t d

/-- Running a sequence of public operations from the empty tree. -/
def runOps (ops : List Op) : Tree :=
  ops.foldl applyOp .leaf
/-- Python `_left_rotate` as a fallible function: `none` models the
AttributeError raised when `z.right` is `None` (the function reads
`z.right.left`); on every other input it agrees with the total model. -/
def leftRotateOpt : Tree → Option Tree
  | .node zd zl (.node yd yl yr yh) zh =>
      some (leftRotate (.node zd zl (.node yd yl yr yh) zh))
  | _ => none

/-- Python `_right_rotate` as a fallible function: `none` models the
AttributeError raised when `z.left` is `None`. -/
def rightRotateOpt : Tree → Option Tree
  | .node zd (.node yd yl yr yh) zr zh =>
      some (rightRotate (.node zd (.node yd yl yr yh) zr zh))
  | _ => none

/-- The rebalancing cases of `_insert_recursive` with the rotation errors
propagated: a rotation applied to a node lacking the needed child aborts
the whole operation, exactly as the Python exception would. -/
def rebalanceAfterInsertOpt (t : Tree) (d : Int) : Option Tree :=
  match t with
  | .leaf => some .leaf
  | .node x l r h =>
      let bf := getBalance (.node x l r h)
      if 1 < bf ∧ d < dataOf l then rightRotateOpt (.node x l r h)
      else if bf < -1 ∧ dataOf r < d then leftRotateOpt (.node x l r h)
      else if 1 < bf ∧ dataOf l < d then
        (leftRotateOpt l).bind (fun l' => rightRotateOpt (.node x l' r h))
      else if bf < -1 ∧ d < dataOf r then
        (rightRotateOpt r).bind (fun r' => leftRotateOpt (.node x l r' h))
      else some (.node x l r h)

/-- The rebalancing cases of `_delete_recursive` with the rotation errors
propagated. -/
def rebalanceAfterDeleteOpt (t : Tree) : Option Tree :=
  match t with
  | .leaf => some .leaf
  | .node x l r h =>
      let bf := getBalance (.node x l r h)
      if 1 < bf ∧ 0 ≤ getBalance l then rightRotateOpt (.node x l r h)
      else if 1 < bf ∧ getBalance l < 0 then
        (leftRotateOpt l).bind (fun l' => rightRotateOpt (.node x l' r h))
      else if bf < -1 ∧ getBalance r ≤ 0 then leftRotateOpt (.node x l r h)
      else if bf < -1 ∧ 0 < getBalance r then
        (rightRotateOpt r).bind (fun r' => leftRotateOpt (.node x l r' h))
      else some (.node x l r h)

/-- Python `_insert_recursive` with the raise modelled: the result is
`none` exactly when some rotation on the way up hits a missing child. -/
def insertRecursiveOpt : Tree → Int → Option Tree
  | .leaf, d => some (.node d .leaf .leaf 1)
  | .node x l r _, d =>
      if d < x then
        (insertRecursiveOpt l d).bind (fun l' =>
          rebalanceAfterInsertOpt (.node x l' r (1 + max (getHeight l') (getHeight r))) d)
      else
        (insertRecursiveOpt r d).bind (fun r' =>
          rebalanceAfterInsertOpt (.node x l r' (1 + max (getHeight l) (getHeight r'))) d)

/-- Python `_delete_recursive` with the raise modelled. -/
def deleteRecursiveOpt : Tree → Int → Option Tree
  | .leaf, _ => some .leaf
  | .node x l r _, d =>
      if d < x then
        (deleteRecursiveOpt l d).bind (fun l' =>
          rebalanceAfterDeleteOpt (.node x l' r (1 + max (getHeight l') (getHeight r))))
      else if x < d then
        (deleteRecursiveOpt r d).bind (fun r' =>
          rebalanceAfterDeleteOpt (.node x l r' (1 + max (getHeight l) (getHeight r'))))
      else if l = .leaf then some r
      else if r = .leaf then some l
      else
        let m := dataOf (getMinValueNode r)
        (deleteRecursiveOpt r m).bind (fun r' =>
          rebalanceAfterDeleteOpt (.node m l r' (1 + max (getHeight l) (getHeight r'))))

/-- Effect of one public operation, `none` when the operation raises. -/
def applyOpOpt (t : Tree) : Op → Option Tree
  | .ins d => insertRecursiveOpt t d
  | .del d => deleteRecursiveOpt t d

/-- Running a sequence of public operations from the empty tree; a raised
exception aborts the run. -/
def runOpsOpt (ops : List Op) : Option Tree :=
  ops.foldl (fun acc op => acc.bind (fun t => applyOpOpt t op)) (some .leaf)

/-- Insertion into a sorted list, placing an equal key after the existing
ones; the list-level counterpart of where `_insert_recursive` puts a key. -/
def insOrd (d : Int) : List Int → List Int
  | [] => [d]
  | b :: l => if d < b then d :: b :: l else b :: insOrd d l

/-- Removal of the first occurrence of a key from a list; the list-level
counterpart of what `_delete_recursive` removes. -/
def delOne (d : Int) : List Int → List Int
  | [] => []
  | b :: l => if b = d then l else b :: delOne d l

lemma heightsOk_node_iff {x : Int} {l r : Tree} {h : Nat} :
    heightsOk (.node x l r h) = true ↔
      h = 1 + max (realHeight l) (realHeight r) ∧
        heightsOk l = true ∧ heightsOk r = true := by
  simp [heightsOk, Bool.and_eq_true, and_assoc]

lemma getHeight_eq_realHeight {t : Tree} (h : heightsOk t = true) :
    getHeight t = realHeight t := by
  cases t with
  | leaf => rfl
  | node x l r hh =>
      rcases heightsOk_node_iff.mp h with ⟨h1, -, -⟩
      simp [getHeight, realHeight, h1]

lemma getHeight_node (x : Int) (l r : Tree) (h : Nat) :
    getHeight (.node x l r h) = h := rfl

lemma realHeight_node (x : Int) (l r : Tree) (h : Nat) :
    realHeight (.node x l r h) = 1 + max (realHeight l) (realHeight r) := rfl

/-- Shape of a left rotation at a node whose right child exists, with the
recomputed heights spelled out. -/
lemma leftRotate_node (zd yd : Int) (zl yl yr : Tree) (yh zh : Nat) :
    leftRotate (.node zd zl (.node yd yl yr yh) zh) =
      .node yd (.node zd zl yl (1 + max (getHeight zl) (getHeight yl))) yr
        (1 + max (1 + max (getHeight zl) (getHeight yl)) (getHeight yr)) := rfl

/-- Shape of a right rotation at a node whose left child exists, with the
recomputed heights spelled out. -/
lemma rightRotate_node (zd yd : Int) (yl yr zr : Tree) (yh zh : Nat) :
    rightRotate (.node zd (.node yd yl yr yh) zr zh) =
      .node yd yl (.node zd yr zr (1 + max (getHeight yr) (getHeight zr)))
        (1 + max (getHeight yl) (1 + max (getHeight yr) (getHeight zr))) := rfl

lemma heightsOk_leftRotate_node {zd yd : Int} {zl yl yr : Tree} {yh zh : Nat}
    (h1 : heightsOk zl = true) (h2 : heightsOk yl = true)
    (h3 : heightsOk yr = true) :
    heightsOk (leftRotate (.node zd zl (.node yd yl yr yh) zh)) = true := by
  rw [leftRotate_node]
  rw [heightsOk_node_iff]
  refine ⟨?_, heightsOk_node_iff.mpr ⟨?_, h1, h2⟩, h3⟩ <;>
    simp only [getHeight_node, realHeight_node, getHeight_eq_realHeight h1,
      getHeight_eq_realHeight h2, getHeight_eq_realHeight h3]

lemma heightsOk_rightRotate_node {zd yd : Int} {yl yr zr : Tree} {yh zh : Nat}
    (h1 : heightsOk yl = true) (h2 : heightsOk yr = true)
    (h3 : heightsOk zr = true) :
    heightsOk (rightRotate (.node zd (.node yd yl yr yh) zr zh)) = true := by
  rw [rightRotate_node]
  rw [heightsOk_node_iff]
  refine ⟨?_, h1, heightsOk_node_iff.mpr ⟨?_, h2, h3⟩⟩ <;>
    simp only [getHeight_node, realHeight_node, getHeight_eq_realHeight h1,
      getHeight_eq_realHeight h2, getHeight_eq_realHeight h3]

lemma heightsOk_rebalanceAfterInsert {x d : Int} {l r : Tree}
    (hl : heightsOk l = true) (hr : heightsOk r = true) :
    heightsOk
      (rebalanceAfterInsert (.node x l r (1 + max (getHeight l) (getHeight r))) d)
      = true := by
  have hfresh : heightsOk (Tree.node x l r (1 + max (getHeight l) (getHeight r))) = true := by
    exact heightsOk_node_iff.mpr
      ⟨by rw [getHeight_eq_realHeight hl, getHeight_eq_realHeight hr], hl, hr⟩
  simp only [rebalanceAfterInsert]
  split_ifs with h1 h2 h3 h4
  · -- Left Left: the left child exists because its balance excess forces it
    cases l with
    | leaf =>
        exfalso
        obtain ⟨h1a, -⟩ := h1
        simp only [getBalance, getHeight] at h1a
        omega
    | node ld ll lr lh =>
        rcases heightsOk_node_iff.mp hl with ⟨-, hll, hlr⟩
        exact heightsOk_rightRotate_node hll hlr hr
  · cases r with
    | leaf =>
        exfalso
        obtain ⟨h2a, -⟩ := h2
        simp only [getBalance, getHeight] at h2a
        omega
    | node rd rl rr rh =>
        rcases heightsOk_node_iff.mp hr with ⟨-, hrl, hrr⟩
        exact heightsOk_leftRotate_node hl hrl hrr
  · -- Left Right: rotate the left child first, then the root
    cases l with
    | leaf =>
        exfalso
        obtain ⟨h3a, -⟩ := h3
        simp only [getBalance, getHeight] at h3a
        omega
    | node ld ll lr lh =>
        rcases heightsOk_node_iff.mp hl with ⟨-, hll, hlr⟩
        cases lr with
        | leaf => exact heightsOk_rightRotate_node hll (by rfl) hr
        | node c m1 m2 mh =>
            rcases heightsOk_node_iff.mp hlr with ⟨-, hm1, hm2⟩
            rw [leftRotate_node]
            exact heightsOk_rightRotate_node
              (heightsOk_node_iff.mpr
                ⟨by rw [getHeight_eq_realHeight hll, getHeight_eq_realHeight hm1],
                  hll, hm1⟩) hm2 hr
  · cases r with
    | leaf =>
        exfalso
        obtain ⟨h4a, -⟩ := h4
        simp only [getBalance, getHeight] at h4a
        omega
    | node rd rl rr rh =>
        rcases heightsOk_node_iff.mp hr with ⟨-, hrl, hrr⟩
        cases rl with
        | leaf => exact heightsOk_leftRotate_node hl (by rfl) hrr
        | node c m1 m2 mh =>
            rcases heightsOk_node_iff.mp hrl with ⟨-, hm1, hm2⟩
            rw [rightRotate_node]
            exact heightsOk_leftRotate_node hl hm1
              (heightsOk_node_iff.mpr
                ⟨by rw [getHeight_eq_realHeight hm2, getHeight_eq_realHeight hrr],
                  hm2, hrr⟩)
  · exact hfresh

lemma heightsOk_rebalanceAfterDelete {x : Int} {l r : Tree}
    (hl : heightsOk l = true) (hr : heightsOk r = true) :
    heightsOk
      (rebalanceAfterDelete (.node x l r (1 + max (getHeight l) (getHeight r))))
      = true := by
  have hfresh : heightsOk (Tree.node x l r (1 + max (getHeight l) (getHeight r))) = true := by
    exact heightsOk_node_iff.mpr
      ⟨by rw [getHeight_eq_realHeight hl, getHeight_eq_realHeight hr], hl, hr⟩
  simp only [rebalanceAfterDelete]
  split_ifs with h1 h2 h3 h4
  · cases l with
    | leaf =>
        exfalso
        obtain ⟨h1a, -⟩ := h1
        simp only [getBalance, getHeight] at h1a
        omega
    | node ld ll lr lh =>
        rcases heightsOk_node_iff.mp hl with ⟨-, hll, hlr⟩
        exact heightsOk_rightRotate_node hll hlr hr
  · cases l with
    | leaf =>
        exfalso
        obtain ⟨h2a, -⟩ := h2
        simp only [getBalance, getHeight] at h2a
        omega
    | node ld ll lr lh =>
        rcases heightsOk_node_iff.mp hl with ⟨-, hll, hlr⟩
        cases lr with
        | leaf => exact heightsOk_rightRotate_node hll (by rfl) hr
        | node c m1 m2 mh =>
            rcases heightsOk_node_iff.mp hlr with ⟨-, hm1, hm2⟩
            rw [leftRotate_node]
            exact heightsOk_rightRotate_node
              (heightsOk_node_iff.mpr
                ⟨by rw [getHeight_eq_realHeight hll, getHeight_eq_realHeight hm1],
                  hll, hm1⟩) hm2 hr
  · cases r with
    | leaf =>
        exfalso
        obtain ⟨h3a, -⟩ := h3
        simp only [getBalance, getHeight] at h3a
        omega
    | node rd rl rr rh =>
        rcases heightsOk_node_iff.mp hr with ⟨-, hrl, hrr⟩
        exact heightsOk_leftRotate_node hl hrl hrr
  · cases r with
    | leaf =>
        exfalso
        obtain ⟨h4a, -⟩ := h4
        simp only [getBalance, getHeight] at h4a
        omega
    | node rd rl rr rh =>
        rcases heightsOk_node_iff.mp hr with ⟨-, hrl, hrr⟩
        cases rl with
        | leaf => exact heightsOk_leftRotate_node hl (by rfl) hrr
        | node c m1 m2 mh =>
            rcases heightsOk_node_iff.mp hrl with ⟨-, hm1, hm2⟩
            rw [rightRotate_node]
            exact heightsOk_leftRotate_node hl hm1
              (heightsOk_node_iff.mpr
                ⟨by rw [getHeight_eq_realHeight hm2, getHeight_eq_realHeight hrr],
                  hm2, hrr⟩)
  · exact hfresh

lemma heightsOk_insertRecursive {t : Tree} (h : heightsOk t = true) (d : Int) :
    heightsOk (insertRecursive t d) = true := by
  induction t with
  | leaf => rfl
  | node x l r hh ihl ihr =>
      rcases heightsOk_node_iff.mp h with ⟨-, hl, hr⟩
      simp only [insertRecursive]
      split_ifs with hcmp
      · exact heightsOk_rebalanceAfterInsert (ihl hl) hr
      · exact heightsOk_rebalanceAfterInsert hl (ihr hr)

lemma heightsOk_deleteRecursive {t : Tree} (h : heightsOk t = true) (d : Int) :
    heightsOk (deleteRecursive t d) = true := by
  induction t generalizing d with
  | leaf => rfl
  | node x l r hh ihl ihr =>
      rcases heightsOk_node_iff.mp h with ⟨-, hl, hr⟩
      simp only [deleteRecursive]
      split_ifs with h1 h2 h3 h4
      · exact heightsOk_rebalanceAfterDelete (ihl hl d) hr
      · exact heightsOk_rebalanceAfterDelete hl (ihr hr d)
      · exact hr
      · exact hl
      · exact heightsOk_rebalanceAfterDelete hl (ihr hr _)

lemma leftRotateOpt_eq : ∀ {t u : Tree}, leftRotateOpt t = some u → u = leftRotate t := by
  intro t u h
  cases t with
  | leaf => exact absurd h (by simp [leftRotateOpt])
  | node zd zl zr zh =>
      cases zr with
      | leaf => exact absurd h (by simp [leftRotateOpt])
      | node yd yl yr yh =>
          simp only [leftRotateOpt, Option.some.injEq] at h
          exact h.symm

lemma rightRotateOpt_eq : ∀ {t u : Tree}, rightRotateOpt t = some u → u = rightRotate t := by
  intro t u h
  cases t with
  | leaf => exact absurd h (by simp [rightRotateOpt])
  | node zd zl zr zh =>
      cases zl with
      | leaf => exact absurd h (by simp [rightRotateOpt])
      | node yd yl yr yh =>
          simp only [rightRotateOpt, Option.some.injEq] at h
          exact h.symm

lemma rebalanceAfterInsertOpt_eq {t u : Tree} {d : Int}
    (h : rebalanceAfterInsertOpt t d = some u) : u = rebalanceAfterInsert t d := by
  cases t with
  | leaf =>
      simp only [rebalanceAfterInsertOpt, Option.some.injEq] at h
      rw [← h, rebalanceAfterInsert]
  | node x l r hh =>
      simp only [rebalanceAfterInsertOpt] at h
      simp only [rebalanceAfterInsert]
      split_ifs at h ⊢ with g1 g2 g3 g4
      · exact rightRotateOpt_eq h
      · exact leftRotateOpt_eq h
      · obtain ⟨l', h1, h2⟩ := Option.bind_eq_some.mp h
        rw [rightRotateOpt_eq h2, leftRotateOpt_eq h1]
      · obtain ⟨r', h1, h2⟩ := Option.bind_eq_some.mp h
        rw [leftRotateOpt_eq h2, rightRotateOpt_eq h1]
      · exact (Option.some.injEq _ _ ▸ h).symm

lemma rebalanceAfterDeleteOpt_eq {t u : Tree}
    (h : rebalanceAfterDeleteOpt t = some u) : u = rebalanceAfterDelete t := by
  cases t with
  | leaf =>
      simp only [rebalanceAfterDeleteOpt, Option.some.injEq] at h
      rw [← h, rebalanceAfterDelete]
  | node x l r hh =>
      simp only [rebalanceAfterDeleteOpt] at h
      simp only [rebalanceAfterDelete]
      split_ifs at h ⊢ with g1 g2 g3 g4
      · exact rightRotateOpt_eq h
      · obtain ⟨l', h1, h2⟩ := Option.bind_eq_some.mp h
        rw [rightRotateOpt_eq h2, leftRotateOpt_eq h1]
      · exact leftRotateOpt_eq h
      · obtain ⟨r', h1, h2⟩ := Option.bind_eq_some.mp h
        rw [leftRotateOpt_eq h2, rightRotateOpt_eq h1]
      · exact (Option.some.injEq _ _ ▸ h).symm

/-- Whenever the fallible insert completes, it returns exactly what the
total model computes. -/
lemma insertRecursiveOpt_eq : ∀ {t u : Tree} {d : Int},
    insertRecursiveOpt t d = some u → u = insertRecursive t d := by
  intro t
  induction t with
  | leaf =>
      intro u d h
      simp only [insertRecursiveOpt, Option.some.injEq] at h
      rw [← h, insertRecursive]
  | node x l r hh ihl ihr =>
      intro u d h
      simp only [insertRecursiveOpt] at h
      simp only [insertRecursive]
      split_ifs at h ⊢ with hcmp
      · obtain ⟨l', h1, h2⟩ := Option.bind_eq_some.mp h
        rw [ihl h1] at h2
        exact rebalanceAfterInsertOpt_eq h2
      · obtain ⟨r', h1, h2⟩ := Option.bind_eq_some.mp h
        rw [ihr h1] at h2
        exact rebalanceAfterInsertOpt_eq h2

/-- Whenever the fallible delete completes, it returns exactly what the
total model computes. -/
lemma deleteRecursiveOpt_eq : ∀ {t u : Tree} {d : Int},
    deleteRecursiveOpt t d = some u → u = deleteRecursive t d
  | .leaf, u, d, h => by
      simp only [deleteRecursiveOpt, Option.some.injEq] at h
      rw [← h, deleteRecursive]
  | .node x l r hh, u, d, h => by
      simp only [deleteRecursiveOpt] at h
      simp only [deleteRecursive]
      split_ifs at h ⊢ with h1 h2 h3 h4
      · obtain ⟨l', hb1, hb2⟩ := Option.bind_eq_some.mp h
        rw [deleteRecursiveOpt_eq hb1] at hb2
        exact rebalanceAfterDeleteOpt_eq hb2
      · obtain ⟨r', hb1, hb2⟩ := Option.bind_eq_some.mp h
        rw [deleteRecursiveOpt_eq hb1] at hb2
        exact rebalanceAfterDeleteOpt_eq hb2
      · exact (Option.some.injEq _ _ ▸ h).symm
      · exact (Option.some.injEq _ _ ▸ h).symm
      · obtain ⟨r', hb1, hb2⟩ := Option.bind_eq_some.mp h
        rw [deleteRecursiveOpt_eq hb1] at hb2
        exact rebalanceAfterDeleteOpt_eq hb2
  termination_by t => t

lemma applyOpOpt_heightsOk {acc u : Tree} {op : Op}
    (hOk : heightsOk acc = true) (h : applyOpOpt acc op = some u) :
    heightsOk u = true := by
  cases op with
  | ins d =>
      rw [insertRecursiveOpt_eq (show insertRecursiveOpt acc d = some u from h)]
      exact heightsOk_insertRecursive hOk d
  | del d =>
      rw [deleteRecursiveOpt_eq (show deleteRecursiveOpt acc d = some u from h)]
      exact heightsOk_deleteRecursive hOk d

lemma foldl_bind_none (ops : List Op) :
    ops.foldl (fun acc op => acc.bind (fun t => applyOpOpt t op)) none = none := by
  induction ops with
  | nil => rfl
  | cons op rest ih => simpa using ih

/-- C4: whenever a sequence of insert and delete operations on the empty
tree completes without raising (the fallible run returns a tree), every
stored height attribute of the result equals the exact recursive height
1 + max of the child heights, with 0 for an absent child; in particular
rotations leave no stale heights behind.  Completion is a real hypothesis:
duplicate-key sequences can drive a rotation onto a node lacking the
needed child, where the Python code raises AttributeError mid-operation
(see the crash theorem below). -/
theorem c4_stored_heights_always_exact (ops : List Op) (t : Tree)
    (h : runOpsOpt ops = some t) : heightsOk t = true := by
  suffices H : ∀ (l : List Op) (acc u : Tree), heightsOk acc = true →
      l.foldl (fun a op => a.bind (fun v => applyOpOpt v op)) (some acc) = some u →
      heightsOk u = true from H ops .leaf t rfl h
  intro l
  induction l with
  | nil =>
      intro acc u hOk h
      rw [List.foldl_nil] at h
      cases h
      exact hOk
  | cons op rest ih =>
      intro acc u hOk h
      rw [List.foldl_cons] at h
      have hstep : (some acc).bind (fun v => applyOpOpt v op) = applyOpOpt acc op := rfl
      rw [hstep] at h
      cases hres : applyOpOpt acc op with
      | none =>
          rw [hres, foldl_bind_none] at h
          cases h
      | some w =>
          rw [hres] at h
          exact ih w u (applyOpOpt_heightsOk hOk hres) h

/-- Witness for C4 on a sequence with an insert, another insert and a
delete, all of which complete. -/
theorem c4_stored_heights_always_exact_witness :
    heightsOk (Tree.node 10 .leaf .leaf 1) = true :=
  c4_stored_heights_always_exact [.ins 20, .ins 10, .del 20]
    (Tree.node 10 .leaf .leaf 1) (by decide)

/-- The error path of the rotations is reachable: inserting the key 1 four
times builds a right chain (no rebalancing case fires on an equal key), and
inserting 0 then fires the Right-Left case on a right child that has no
left child, where `_right_rotate` reads `None.right` and the program
raises.  The fallible run aborts exactly there. -/
theorem runOpsOpt_crash_on_duplicates :
    runOpsOpt [.ins 1, .ins 1, .ins 1, .ins 1, .ins 0] = none := by
  decide

/-- C1: the claim says that when `search(k)` is true, `insert(k)` leaves the
tree completely unchanged.  The code violates this: `_insert_recursive` has
no equality case, so inserting the key 10 into the tree that already holds
10 adds a second node with key 10 as the right child, even though the
docstring of `insert` promises that no changes are made.  This theorem
exhibits the failure: after `insert(10)` on the empty tree, `search(10)` is
true, yet a second `insert(10)` produces a different tree. -/
theorem c1_duplicate_insert_changes_tree :
    searchRecursive (runOps [.ins 10]) 10 = true ∧
      runOps [.ins 10, .ins 10] ≠ runOps [.ins 10] := by
  decide

/-- C2: the claim says every tree reachable by public operations satisfies
the BST property and the AVL balance property.  Because duplicate inserts
are not filtered out, both invariants fail on reachable trees: after
`insert(1); insert(1)` the root has a right child with the equal key 1
(strict BST violated), and after a third `insert(1)` the rebalancing cases
do not fire (they compare the inserted key strictly with the child data),
leaving a right chain whose root balance factor is -2. -/
theorem c2_invariants_fail_on_duplicates :
    isBST (runOps [.ins 1, .ins 1]) = false ∧
      isBalanced (runOps [.ins 1, .ins 1, .ins 1]) = false := by
  decide

/-- C6: a left rotation at a node with a right child, and a right rotation
at a node with a left child, keep the in-order key sequence of the subtree
(hence exactly the same keys); only the structure changes. -/
theorem c6_rotations_preserve_inorder :
    (∀ zd zl yd yl yr yh zh,
        inorder (leftRotate (Tree.node zd zl (Tree.node yd yl yr yh) zh)) =
          inorder (Tree.node zd zl (Tree.node yd yl yr yh) zh)) ∧
      (∀ zd zr yd yl yr yh zh,
        inorder (rightRotate (Tree.node zd (Tree.node yd yl yr yh) zr zh)) =
          inorder (Tree.node zd (Tree.node yd yl yr yh) zr zh)) := by
  constructor <;> intro zd zc yd yl yr yh zh <;>
    simp [leftRotate, rightRotate, inorder]

/-- C7: deleting a key with two children goes through the in-order
successor: the matched node receives the data of the minimum of its right
subtree and that minimum is deleted from the right subtree (third
conjunct, the defining equation of the two-children case).  Concretely,
building the tree from 20, 10, 30, 5, 15, 25, 35 and deleting 20 yields the
root key 25 and a tree that still satisfies the AVL balance property. -/
theorem c7_delete_two_children_successor :
    dataOf (deleteRecursive (buildTree [20, 10, 30, 5, 15, 25, 35]) 20) = 25 ∧
      isBalanced (deleteRecursive (buildTree [20, 10, 30, 5, 15, 25, 35]) 20) = true ∧
      ∀ x ld ll lr lh rd rl rr rh hh,
        deleteRecursive (Tree.node x (Tree.node ld ll lr lh) (Tree.node rd rl rr rh) hh) x =
          rebalanceAfterDelete
            (Tree.node (dataOf (getMinValueNode (Tree.node rd rl rr rh)))
              (Tree.node ld ll lr lh)
              (deleteRecursive (Tree.node rd rl rr rh)
                (dataOf (getMinValueNode (Tree.node rd rl rr rh))))
              (1 + max (getHeight (Tree.node ld ll lr lh))
                (getHeight (deleteRecursive (Tree.node rd rl rr rh)
                  (dataOf (getMinValueNode (Tree.node rd rl rr rh))))))) := by
  refine ⟨by decide, by decide, ?_⟩
  intro x ld ll lr lh rd rl rr rh hh
  simp [deleteRecursive, lt_irrefl]

lemma isBST_node_iff {x : Int} {l r : Tree} {h : Nat} :
    isBST (.node x l r h) = true ↔
      (∀ k ∈ inorder l, k < x) ∧ (∀ k ∈ inorder r, x < k) ∧
        isBST l = true ∧ isBST r = true := by
  simp [isBST, Bool.and_eq_true, List.all_eq_true, and_assoc]

lemma isBST_iff_pairwise : ∀ t : Tree,
    isBST t = true ↔ List.Pairwise (fun a b => a < b) (inorder t)
  | .leaf => by simp [isBST, inorder]
  | .node x l r h => by
      rw [inorder, List.pairwise_append]
      simp only [List.pairwise_cons, List.mem_cons]
      rw [isBST_node_iff, isBST_iff_pairwise l, isBST_iff_pairwise r]
      constructor
      · rintro ⟨hlx, hxr, hl, hr⟩
        refine ⟨hl, ⟨hxr, hr⟩, ?_⟩
        rintro a ha b (rfl | hb)
        · exact hlx a ha
        · exact lt_trans (hlx a ha) (hxr b hb)
      · rintro ⟨hl, ⟨hxr, hr⟩, hcross⟩
        exact ⟨fun a ha => hcross a ha x (Or.inl rfl), hxr, hl, hr⟩

lemma inorder_leftRotate (t : Tree) : inorder (leftRotate t) = inorder t := by
  cases t with
  | leaf => rfl
  | node zd zl zr zh =>
      cases zr with
      | leaf => rfl
      | node yd yl yr yh => simp [leftRotate_node, inorder]

lemma inorder_rightRotate (t : Tree) : inorder (rightRotate t) = inorder t := by
  cases t with
  | leaf => rfl
  | node zd zl zr zh =>
      cases zl with
      | leaf => rfl
      | node yd yl yr yh => simp [rightRotate_node, inorder]

lemma inorder_rebalanceAfterInsert (t : Tree) (d : Int) :
    inorder (rebalanceAfterInsert t d) = inorder t := by
  cases t with
  | leaf => rfl
  | node x l r h =>
      simp only [rebalanceAfterInsert]
      split_ifs <;>
        simp [inorder_leftRotate, inorder_rightRotate, inorder]

lemma inorder_rebalanceAfterDelete (t : Tree) :
    inorder (rebalanceAfterDelete t) = inorder t := by
  cases t with
  | leaf => rfl
  | node x l r h =>
      simp only [rebalanceAfterDelete]
      split_ifs <;>
        simp [inorder_leftRotate, inorder_rightRotate, inorder]

lemma mem_insOrd {a d : Int} : ∀ l : List Int, a ∈ insOrd d l ↔ a = d ∨ a ∈ l
  | [] => by simp [insOrd]
  | b :: l => by
      simp only [insOrd]
      split_ifs with hb
      · simp
      · simp only [List.mem_cons, mem_insOrd l]
        tauto

lemma pairwise_insOrd {d : Int} : ∀ {l : List Int},
    List.Pairwise (fun a b => a < b) l → d ∉ l →
      List.Pairwise (fun a b => a < b) (insOrd d l)
  | [], _, _ => by simp [insOrd]
  | b :: l, hp, hd => by
      rcases List.pairwise_cons.mp hp with ⟨hbl, hl⟩
      simp only [insOrd]
      split_ifs with hdb
      · refine List.pairwise_cons.mpr ⟨?_, hp⟩
        intro y hy
        rcases List.mem_cons.mp hy with rfl | hy
        · exact hdb
        · exact lt_trans hdb (hbl y hy)
      · have hbd : b < d := by
          rcases lt_or_eq_of_le (not_lt.mp hdb) with h | h
          · exact h
          · exact absurd h.symm (fun he => hd (he ▸ List.mem_cons_self b l))
        refine List.pairwise_cons.mpr ⟨?_, ?_⟩
        · intro y hy
          rcases (mem_insOrd l).mp hy with rfl | hy
          · exact hbd
          · exact hbl y hy
        · exact pairwise_insOrd hl (fun h => hd (List.mem_cons_of_mem b h))

lemma perm_insOrd (d : Int) : ∀ l : List Int, (insOrd d l).Perm (d :: l)
  | [] => by simp [insOrd]
  | b :: l => by
      simp only [insOrd]
      split_ifs with hb
      · exact List.Perm.refl _
      · exact ((perm_insOrd d l).cons b).trans (List.Perm.swap d b l)

lemma insOrd_append_left {d x : Int} (hx : d < x) :
    ∀ (l₁ l₂ : List Int), insOrd d (l₁ ++ x :: l₂) = insOrd d l₁ ++ x :: l₂
  | [], l₂ => by simp [insOrd, hx]
  | b :: l₁, l₂ => by
      simp only [List.cons_append, List.append_eq, insOrd]
      split_ifs with hb
      · rfl
      · rw [insOrd_append_left hx l₁ l₂]
        rfl

lemma insOrd_append_right {d x : Int} (hx : ¬ d < x) :
    ∀ (l₁ l₂ : List Int), (∀ b ∈ l₁, ¬ d < b) →
      insOrd d (l₁ ++ x :: l₂) = l₁ ++ x :: insOrd d l₂
  | [], l₂, _ => by simp [insOrd, hx]
  | b :: l₁, l₂, h => by
      simp only [List.cons_append, List.append_eq, insOrd]
      rw [if_neg (h b (List.mem_cons_self b l₁))]
      rw [insOrd_append_right hx l₁ l₂ (fun y hy => h y (List.mem_cons_of_mem b hy))]

lemma inorder_insertRecursive {t : Tree} (hB : isBST t = true) (d : Int) :
    inorder (insertRecursive t d) = insOrd d (inorder t) := by
  induction t with
  | leaf => simp [insertRecursive, inorder, insOrd]
  | node x l r h ihl ihr =>
      rcases isBST_node_iff.mp hB with ⟨hlx, hxr, hBl, hBr⟩
      simp only [insertRecursive]
      split_ifs with hcmp
      · rw [inorder_rebalanceAfterInsert, inorder, ihl hBl, inorder,
          insOrd_append_left hcmp]
      · rw [inorder_rebalanceAfterInsert, inorder, ihr hBr, inorder,
          insOrd_append_right hcmp _ _
            (fun b hb => not_lt.mpr (le_of_lt (lt_of_lt_of_le (hlx b hb) (not_lt.mp hcmp))))]

lemma isBST_insertRecursive {t : Tree} (hB : isBST t = true) {d : Int}
    (hd : d ∉ inorder t) : isBST (insertRecursive t d) = true := by
  rw [isBST_iff_pairwise, inorder_insertRecursive hB]
  exact pairwise_insOrd ((isBST_iff_pairwise t).mp hB) hd

/-- C5: on a tree satisfying the BST property, the ordered-descent search
returns true exactly when the key is present.  The embedded
`searchRecursive` is a pure function, so the absence of side effects is
part of the embedding itself. -/
theorem c5_search_iff_member (t : Tree) (d : Int) (hB : isBST t = true) :
    searchRecursive t d = true ↔ d ∈ inorder t := by
  induction t with
  | leaf => simp [searchRecursive, inorder]
  | node x l r h ihl ihr =>
      rcases isBST_node_iff.mp hB with ⟨hlx, hxr, hBl, hBr⟩
      simp only [searchRecursive, inorder, List.mem_append, List.mem_cons]
      split_ifs with he hlt
      · simp [he.symm]
      · rw [ihl hBl]
        constructor
        · exact fun hm => Or.inl hm
        · rintro (hm | rfl | hm)
          · exact hm
          · exact absurd rfl he
          · exact absurd (hxr d hm) (by omega)
      · rw [ihr hBr]
        constructor
        · exact fun hm => Or.inr (Or.inr hm)
        · rintro (hm | rfl | hm)
          · exact absurd (hlx d hm) (by omega)
          · exact absurd rfl he
          · exact hm

/-- Witness for C5 at a concrete balanced tree and key. -/
theorem c5_search_iff_member_witness :
    searchRecursive (buildTree [2, 1, 3]) 2 = true ↔
      2 ∈ inorder (buildTree [2, 1, 3]) :=
  c5_search_iff_member (buildTree [2, 1, 3]) 2 (by decide)

lemma delOne_cons_self (d : Int) (l : List Int) : delOne d (d :: l) = l := by
  simp [delOne]

lemma delOne_of_not_mem {d : Int} : ∀ {l : List Int}, d ∉ l → delOne d l = l
  | [], _ => rfl
  | b :: l, h => by
      have hbd : b ≠ d := fun hb => h (hb ▸ List.mem_cons_self b l)
      simp only [delOne, if_neg hbd]
      rw [delOne_of_not_mem (fun hm => h (List.mem_cons_of_mem b hm))]

lemma delOne_append_left {d : Int} : ∀ {l₁ : List Int} (l₂ : List Int), d ∈ l₁ →
    delOne d (l₁ ++ l₂) = delOne d l₁ ++ l₂
  | [], _, h => absurd h (List.not_mem_nil d)
  | b :: l₁, l₂, h => by
      by_cases hbd : b = d
      · simp [delOne, hbd]
      · simp only [List.cons_append, List.append_eq, delOne, if_neg hbd]
        rw [delOne_append_left l₂ (by
          rcases List.mem_cons.mp h with rfl | hm
          · exact absurd rfl hbd
          · exact hm)]

lemma delOne_append_right {d : Int} : ∀ {l₁ : List Int} (l₂ : List Int), d ∉ l₁ →
    delOne d (l₁ ++ l₂) = l₁ ++ delOne d l₂
  | [], _, _ => rfl
  | b :: l₁, l₂, h => by
      have hbd : b ≠ d := fun hb => h (hb ▸ List.mem_cons_self b l₁)
      simp only [List.cons_append, List.append_eq, delOne, if_neg hbd]
      rw [delOne_append_right l₂ (fun hm => h (List.mem_cons_of_mem b hm))]

lemma delOne_sublist (d : Int) : ∀ l : List Int, (delOne d l).Sublist l
  | [] => List.Sublist.slnil
  | b :: l => by
      simp only [delOne]
      split_ifs with hbd
      · exact List.sublist_cons_self b l
      · exact (delOne_sublist d l).cons₂ b

lemma pairwise_delOne {d : Int} {l : List Int}
    (h : List.Pairwise (fun a b => a < b) l) :
    List.Pairwise (fun a b => a < b) (delOne d l) :=
  h.sublist (delOne_sublist d l)

lemma perm_delOne (d : Int) {l₁ l₂ : List Int} (h : l₁.Perm l₂) :
    (delOne d l₁).Perm (delOne d l₂) := by
  induction h with
  | nil => exact List.Perm.refl _
  | cons b h ih =>
      simp only [delOne]
      split_ifs with hbd
      · exact h
      · exact ih.cons b
  | swap b c l =>
      by_cases hcd : c = d <;> by_cases hbd : b = d <;>
        simp [delOne, hcd, hbd] <;>
        first
          | exact List.Perm.refl _
          | (subst hcd; subst hbd; exact List.Perm.refl _)
          | exact List.Perm.swap _ _ _
  | trans h₁ h₂ ih₁ ih₂ => exact ih₁.trans ih₂

/-- The head of the in-order sequence of a non-empty subtree is the data of
its leftmost node, the one `_get_min_value_node` returns. -/
lemma inorder_min_head : ∀ (x : Int) (l r : Tree) (hh : Nat),
    ∃ tl, inorder (Tree.node x l r hh) =
      dataOf (getMinValueNode (Tree.node x l r hh)) :: tl
  | x, .leaf, r, hh => ⟨inorder r, by simp [inorder, getMinValueNode, dataOf]⟩
  | x, .node ld ll lr lh, r, hh => by
      obtain ⟨tl, htl⟩ := inorder_min_head ld ll lr lh
      refine ⟨tl ++ x :: inorder r, ?_⟩
      have h1 : inorder (Tree.node x (Tree.node ld ll lr lh) r hh) =
          inorder (Tree.node ld ll lr lh) ++ x :: inorder r := rfl
      have h2 : getMinValueNode (Tree.node x (Tree.node ld ll lr lh) r hh) =
          getMinValueNode (Tree.node ld ll lr lh) := rfl
      rw [h1, h2, htl, List.cons_append]

lemma inorder_deleteRecursive : ∀ {t : Tree}, isBST t = true → ∀ (d : Int),
    inorder (deleteRecursive t d) = delOne d (inorder t)
  | .leaf, _, d => rfl
  | .node x l r hh, hB, d => by
      rcases isBST_node_iff.mp hB with ⟨hlx, hxr, hBl, hBr⟩
      have hin : inorder (Tree.node x l r hh) = inorder l ++ x :: inorder r := rfl
      simp only [deleteRecursive, hin]
      split_ifs with h1 h2 h3 h4
      · -- descend left
        rw [inorder_rebalanceAfterDelete, inorder,
          inorder_deleteRecursive hBl d]
        by_cases hm : d ∈ inorder l
        · rw [delOne_append_left _ hm]
        · have hxd : d ∉ inorder r := fun hmr => by
            have := hxr d hmr; omega
          rw [delOne_of_not_mem hm, delOne_append_right _ hm]
          have hdx : x ≠ d := by omega
          rw [delOne, if_neg hdx, delOne_of_not_mem hxd]
      · -- descend right
        rw [inorder_rebalanceAfterDelete, inorder,
          inorder_deleteRecursive hBr d]
        have hml : d ∉ inorder l := fun hm => by
          have := hlx d hm; omega
        rw [delOne_append_right _ hml]
        have hdx : x ≠ d := by omega
        rw [delOne, if_neg hdx]
      · -- matched, no left child
        have hdx : d = x := by omega
        subst h3
        simp [inorder, delOne, hdx]
      · -- matched, no right child
        have hdx : d = x := by omega
        subst h4
        have hml : d ∉ inorder l := fun hm => by
          have := hlx d hm; omega
        rw [delOne_append_right _ hml]
        simp [inorder, delOne, hdx]
      · -- matched, two children: in-order successor case
        have hdx : d = x := by omega
        have hml : d ∉ inorder l := fun hm => by
          have := hlx d hm; omega
        cases r with
        | leaf => exact absurd rfl h4
        | node rd rl rr rh =>
            obtain ⟨tl, htl⟩ := inorder_min_head rd rl rr rh
            rw [inorder_rebalanceAfterDelete, inorder,
              inorder_deleteRecursive hBr _, htl, delOne_cons_self,
              delOne_append_right _ hml]
            rw [delOne, if_pos hdx.symm]
  termination_by t => t

lemma isBST_deleteRecursive {t : Tree} (hB : isBST t = true) (d : Int) :
    isBST (deleteRecursive t d) = true := by
  rw [isBST_iff_pairwise, inorder_deleteRecursive hB d]
  exact pairwise_delOne ((isBST_iff_pairwise t).mp hB)

lemma inorder_eq_nil {t : Tree} (h : inorder t = []) : t = .leaf := by
  cases t with
  | leaf => rfl
  | node x l r hh => simp [inorder] at h

lemma foldl_delete_eq_leaf : ∀ (l : List Int) (t : Tree), isBST t = true →
    (inorder t).Perm l → List.foldl deleteRecursive t l = .leaf
  | [], t, _, hperm => by
      simp only [List.foldl_nil]
      exact inorder_eq_nil (List.Perm.eq_nil hperm)
  | a :: l, t, hB, hperm => by
      simp only [List.foldl_cons]
      refine foldl_delete_eq_leaf l _ (isBST_deleteRecursive hB a) ?_
      rw [inorder_deleteRecursive hB a]
      have := perm_delOne a hperm
      rwa [delOne_cons_self] at this



lemma getBalance_node (x : Int) (l r : Tree) (h : Nat) :
    getBalance (.node x l r h) = (getHeight l : Int) - getHeight r := rfl

lemma dataOf_node (x : Int) (l r : Tree) (h : Nat) :
    dataOf (.node x l r h) = x := rfl

lemma realBal_node (x : Int) (l r : Tree) (h : Nat) :
    realBal (.node x l r h) = (realHeight l : Int) - realHeight r := rfl

lemma realHeight_leaf : realHeight .leaf = 0 := rfl

lemma isBalanced_node_iff {x : Int} {l r : Tree} {h : Nat} :
    isBalanced (.node x l r h) = true ↔
      ((realHeight l : Int) - realHeight r).natAbs ≤ 1 ∧
        isBalanced l = true ∧ isBalanced r = true := by
  simp [isBalanced, Bool.and_eq_true, and_assoc]

/-- One rebalancing step of `_insert_recursive` after an insertion into the
left subtree: with the left subtree already replaced by its post-insert
value, either no rotation fires and the node comes back unchanged with a
legal balance factor, or the left side exceeded by two and a rotation
returns a balanced subtree of height `realHeight r + 2`. -/
lemma rebalanceAfterInsert_left (x d : Int) (l' r : Tree)
    (hOkl' : heightsOk l' = true) (hOkr : heightsOk r = true)
    (ibal : isBalanced l' = true) (hbr : isBalanced r = true)
    (hlow : (realHeight r : Int) - 1 ≤ realHeight l')
    (hhigh : (realHeight l' : Int) ≤ realHeight r + 2)
    (hgrow2 : (realHeight l' : Int) = realHeight r + 2 →
      (realBal l' = 1 ∧ d < dataOf l') ∨ (realBal l' = -1 ∧ dataOf l' < d)) :
    isBalanced
        (rebalanceAfterInsert (.node x l' r (1 + max (getHeight l') (getHeight r))) d)
        = true ∧
      ((rebalanceAfterInsert (.node x l' r (1 + max (getHeight l') (getHeight r))) d =
            .node x l' r (1 + max (getHeight l') (getHeight r)) ∧
          ((realHeight l' : Int) - realHeight r).natAbs ≤ 1) ∨
        ((realHeight l' : Int) = realHeight r + 2 ∧
          realHeight
              (rebalanceAfterInsert (.node x l' r (1 + max (getHeight l') (getHeight r))) d)
            = realHeight r + 2)) := by
  have hgl' : getHeight l' = realHeight l' := getHeight_eq_realHeight hOkl'
  have hgr : getHeight r = realHeight r := getHeight_eq_realHeight hOkr
  simp only [rebalanceAfterInsert, getBalance_node, hgl', hgr]
  split_ifs with g1 g2 g3 g4
  · -- Left Left case
    obtain ⟨g1a, g1b⟩ := g1
    have hb1 : realBal l' = 1 := by
      rcases hgrow2 (by omega) with ⟨hb1, -⟩ | ⟨-, hd1⟩
      · exact hb1
      · exact absurd g1b (by omega)
    cases l' with
    | leaf =>
        exfalso
        rw [realHeight_leaf] at g1a
        omega
    | node ld ll lr lh =>
        rcases isBalanced_node_iff.mp ibal with ⟨-, hbll, hblr⟩
        rw [realBal_node] at hb1
        simp only [realHeight_node] at g1a hhigh
        rw [rightRotate_node]
        refine ⟨?_, Or.inr ⟨by simp only [realHeight_node]; omega, ?_⟩⟩
        · simp only [isBalanced_node_iff, realHeight_node]
          exact ⟨by omega, hbll, by omega, hblr, hbr⟩
        · simp only [realHeight_node]
          omega
  · -- Right Right case cannot fire after a left insertion
    exfalso
    obtain ⟨g2a, -⟩ := g2
    omega
  · -- Left Right case
    obtain ⟨g3a, g3b⟩ := g3
    have hb1 : realBal l' = -1 := by
      rcases hgrow2 (by omega) with ⟨-, hd1⟩ | ⟨hb1, -⟩
      · exact absurd g3b (by omega)
      · exact hb1
    cases l' with
    | leaf =>
        exfalso
        rw [realHeight_leaf] at g3a
        omega
    | node ld ll lr lh =>
        rcases isBalanced_node_iff.mp ibal with ⟨-, hbll, hblr⟩
        rw [realBal_node] at hb1
        simp only [realHeight_node] at g3a hhigh
        cases lr with
        | leaf =>
            exfalso
            rw [realHeight_leaf] at hb1
            omega
        | node c m1 m2 mh =>
            rcases isBalanced_node_iff.mp hblr with ⟨hbm, hbm1, hbm2⟩
            simp only [realHeight_node] at hb1 g3a hhigh
            rw [leftRotate_node, rightRotate_node]
            refine ⟨?_, Or.inr ⟨by simp only [realHeight_node]; omega, ?_⟩⟩
            · simp only [isBalanced_node_iff, realHeight_node]
              exact ⟨by omega, ⟨by omega, hbll, hbm1⟩, by omega, hbm2, hbr⟩
            · simp only [realHeight_node]
              omega
  · -- Right Left case cannot fire after a left insertion
    exfalso
    obtain ⟨g4a, -⟩ := g4
    omega
  · -- no rotation
    have hble : ¬ (1 : Int) < (realHeight l' : Int) - realHeight r := by
      intro hgt
      rcases hgrow2 (by omega) with ⟨hb1, hd1⟩ | ⟨hb1, hd1⟩
      · exact g1 ⟨hgt, hd1⟩
      · exact g3 ⟨hgt, hd1⟩
    refine ⟨?_, Or.inl ⟨rfl, by omega⟩⟩
    rw [isBalanced_node_iff]
    exact ⟨by omega, ibal, hbr⟩

/-- One rebalancing step of `_insert_recursive` after an insertion into the
right subtree; mirror image of the previous lemma. -/
lemma rebalanceAfterInsert_right (x d : Int) (l r' : Tree)
    (hOkl : heightsOk l = true) (hOkr' : heightsOk r' = true)
    (hbl : isBalanced l = true) (ibal : isBalanced r' = true)
    (hlow : (realHeight l : Int) - 1 ≤ realHeight r')
    (hhigh : (realHeight r' : Int) ≤ realHeight l + 2)
    (hgrow2 : (realHeight r' : Int) = realHeight l + 2 →
      (realBal r' = 1 ∧ d < dataOf r') ∨ (realBal r' = -1 ∧ dataOf r' < d)) :
    isBalanced
        (rebalanceAfterInsert (.node x l r' (1 + max (getHeight l) (getHeight r'))) d)
        = true ∧
      ((rebalanceAfterInsert (.node x l r' (1 + max (getHeight l) (getHeight r'))) d =
            .node x l r' (1 + max (getHeight l) (getHeight r')) ∧
          ((realHeight l : Int) - realHeight r').natAbs ≤ 1) ∨
        ((realHeight r' : Int) = realHeight l + 2 ∧
          realHeight
              (rebalanceAfterInsert (.node x l r' (1 + max (getHeight l) (getHeight r'))) d)
            = realHeight l + 2)) := by
  have hgr' : getHeight r' = realHeight r' := getHeight_eq_realHeight hOkr'
  have hgl : getHeight l = realHeight l := getHeight_eq_realHeight hOkl
  simp only [rebalanceAfterInsert, getBalance_node, hgr', hgl]
  split_ifs with g1 g2 g3 g4
  · -- Left Left case cannot fire after a right insertion
    exfalso
    obtain ⟨g1a, -⟩ := g1
    omega
  · -- Right Right case
    obtain ⟨g2a, g2b⟩ := g2
    have hb1 : realBal r' = -1 := by
      rcases hgrow2 (by omega) with ⟨-, hd1⟩ | ⟨hb1, -⟩
      · exact absurd g2b (by omega)
      · exact hb1
    cases r' with
    | leaf =>
        exfalso
        rw [realHeight_leaf] at g2a
        omega
    | node rd rl rr rh =>
        rcases isBalanced_node_iff.mp ibal with ⟨-, hbrl, hbrr⟩
        rw [realBal_node] at hb1
        simp only [realHeight_node] at g2a hhigh
        rw [leftRotate_node]
        refine ⟨?_, Or.inr ⟨by simp only [realHeight_node]; omega, ?_⟩⟩
        · simp only [isBalanced_node_iff, realHeight_node]
          exact ⟨by omega, ⟨by omega, hbl, hbrl⟩, hbrr⟩
        · simp only [realHeight_node]
          omega
  · -- Left Right case cannot fire after a right insertion
    exfalso
    obtain ⟨g3a, -⟩ := g3
    omega
  · -- Right Left case
    obtain ⟨g4a, g4b⟩ := g4
    have hb1 : realBal r' = 1 := by
      rcases hgrow2 (by omega) with ⟨hb1, -⟩ | ⟨-, hd1⟩
      · exact hb1
      · exact absurd g4b (by omega)
    cases r' with
    | leaf =>
        exfalso
        rw [realHeight_leaf] at g4a
        omega
    | node rd rl rr rh =>
        rcases isBalanced_node_iff.mp ibal with ⟨-, hbrl, hbrr⟩
        rw [realBal_node] at hb1
        simp only [realHeight_node] at g4a hhigh
        cases rl with
        | leaf =>
            exfalso
            rw [realHeight_leaf] at hb1
            omega
        | node c m1 m2 mh =>
            rcases isBalanced_node_iff.mp hbrl with ⟨hbm, hbm1, hbm2⟩
            simp only [realHeight_node] at hb1 g4a hhigh
            rw [rightRotate_node, leftRotate_node]
            refine ⟨?_, Or.inr ⟨by simp only [realHeight_node]; omega, ?_⟩⟩
            · simp only [isBalanced_node_iff, realHeight_node]
              exact ⟨by omega, ⟨by omega, hbl, hbm1⟩, by omega, hbm2, hbrr⟩
            · simp only [realHeight_node]
              omega
  · -- no rotation
    have hble : ¬ ((realHeight l : Int) - realHeight r' < -1) := by
      intro hgt
      rcases hgrow2 (by omega) with ⟨hb1, hd1⟩ | ⟨hb1, hd1⟩
      · exact g4 ⟨hgt, hd1⟩
      · exact g2 ⟨hgt, hd1⟩
    refine ⟨?_, Or.inl ⟨rfl, by omega⟩⟩
    rw [isBalanced_node_iff]
    exact ⟨by omega, hbl, ibal⟩

/-- Balance preservation of `_insert_recursive` for a key not yet present:
the result is balanced, its real height grows by at most one, and when it
does grow (on a nonempty tree) the grown side is the side of the inserted
key, so the new balance factor is plus or minus one accordingly. -/
theorem insert_balance (d : Int) (t : Tree) : heightsOk t = true →
    isBalanced t = true → d ∉ inorder t →
    isBalanced (insertRecursive t d) = true ∧
      (realHeight (insertRecursive t d) = realHeight t ∨
        realHeight (insertRecursive t d) = realHeight t + 1) ∧
      (realHeight (insertRecursive t d) = realHeight t + 1 → 1 ≤ realHeight t →
        (realBal (insertRecursive t d) = 1 ∧ d < dataOf (insertRecursive t d)) ∨
          (realBal (insertRecursive t d) = -1 ∧ dataOf (insertRecursive t d) < d)) := by
  induction t with
  | leaf =>
      intro _ _ _
      refine ⟨?_, Or.inr rfl, ?_⟩
      · show isBalanced (Tree.node d .leaf .leaf 1) = true
        rw [isBalanced_node_iff]
        exact ⟨by simp [realHeight_leaf], rfl, rfl⟩
      · intro _ h2
        rw [realHeight_leaf] at h2
        omega
  | node x l r hh ihl ihr =>
      intro hOk hbal hmem
      rcases heightsOk_node_iff.mp hOk with ⟨hhh, hOkl, hOkr⟩
      rcases isBalanced_node_iff.mp hbal with ⟨hbb, hbl, hbr⟩
      have hmx : x ≠ d := fun he => hmem
        (show d ∈ inorder (Tree.node x l r hh) from
          List.mem_append.mpr (Or.inr (by rw [he]; exact List.mem_cons_self d _)))
      have hml : d ∉ inorder l := fun hm => hmem
        (show d ∈ inorder (Tree.node x l r hh) from List.mem_append.mpr (Or.inl hm))
      have hmr : d ∉ inorder r := fun hm => hmem
        (show d ∈ inorder (Tree.node x l r hh) from
          List.mem_append.mpr (Or.inr (List.mem_cons_of_mem x hm)))
      simp only [insertRecursive]
      split_ifs with hcmp
      · -- insertion into the left subtree
        obtain ⟨ibal, iht, igrow⟩ := ihl hOkl hbl hml
        set l' := insertRecursive l d with hldef
        clear_value l'
        have hOkl' : heightsOk l' = true := hldef ▸ heightsOk_insertRecursive hOkl d
        have hgrow2 : (realHeight l' : Int) = realHeight r + 2 →
            (realBal l' = 1 ∧ d < dataOf l') ∨ (realBal l' = -1 ∧ dataOf l' < d) := by
          intro h2
          exact igrow (by omega) (by omega)
        obtain ⟨hbalR, hcase⟩ :=
          rebalanceAfterInsert_left x d l' r hOkl' hOkr ibal hbr
            (by omega) (by omega) hgrow2
        refine ⟨hbalR, ?_, ?_⟩
        · rcases hcase with ⟨heq, hb⟩ | ⟨hbf, hht⟩
          · rw [heq]
            simp only [realHeight_node]
            omega
          · rw [hht]
            simp only [realHeight_node]
            omega
        · rcases hcase with ⟨heq, hb⟩ | ⟨hbf, hht⟩
          · rw [heq]
            simp only [realHeight_node, realBal_node, dataOf_node]
            intro hg _
            left
            exact ⟨by omega, hcmp⟩
          · intro hg _
            exfalso
            rw [hht] at hg
            simp only [realHeight_node] at hg
            omega
      · -- insertion into the right subtree
        have hxd : x < d := by
          rcases lt_trichotomy x d with h | h | h
          · exact h
          · exact absurd h hmx
          · exact absurd h hcmp
        obtain ⟨ibal, iht, igrow⟩ := ihr hOkr hbr hmr
        set r' := insertRecursive r d with hrdef
        clear_value r'
        have hOkr' : heightsOk r' = true := hrdef ▸ heightsOk_insertRecursive hOkr d
        have hgrow2 : (realHeight r' : Int) = realHeight l + 2 →
            (realBal r' = 1 ∧ d < dataOf r') ∨ (realBal r' = -1 ∧ dataOf r' < d) := by
          intro h2
          exact igrow (by omega) (by omega)
        obtain ⟨hbalR, hcase⟩ :=
          rebalanceAfterInsert_right x d l r' hOkl hOkr' hbl ibal
            (by omega) (by omega) hgrow2
        refine ⟨hbalR, ?_, ?_⟩
        · rcases hcase with ⟨heq, hb⟩ | ⟨hbf, hht⟩
          · rw [heq]
            simp only [realHeight_node]
            omega
          · rw [hht]
            simp only [realHeight_node]
            omega
        · rcases hcase with ⟨heq, hb⟩ | ⟨hbf, hht⟩
          · rw [heq]
            simp only [realHeight_node, realBal_node, dataOf_node]
            intro hg _
            right
            exact ⟨by omega, hxd⟩
          · intro hg _
            exfalso
            rw [hht] at hg
            simp only [realHeight_node] at hg
            omega


lemma foldl_insert_inv : ∀ (l : List Int) (t : Tree),
    heightsOk t = true → isBST t = true → isBalanced t = true →
    (∀ k ∈ l, k ∉ inorder t) → l.Nodup →
    heightsOk (List.foldl insertRecursive t l) = true ∧
      isBST (List.foldl insertRecursive t l) = true ∧
      isBalanced (List.foldl insertRecursive t l) = true ∧
      (inorder (List.foldl insertRecursive t l)).Perm (inorder t ++ l)
  | [], t, hOk, hB, hbal, _, _ => ⟨hOk, hB, hbal, by simp⟩
  | a :: l, t, hOk, hB, hbal, hfresh, hnd => by
      have hmem : a ∉ inorder t := hfresh a (List.mem_cons_self a l)
      have hOk' := heightsOk_insertRecursive hOk a
      have hB' := isBST_insertRecursive hB hmem
      have hbal' := (insert_balance a t hOk hbal hmem).1
      have hin : inorder (insertRecursive t a) = insOrd a (inorder t) :=
        inorder_insertRecursive hB a
      have hfresh' : ∀ k ∈ l, k ∉ inorder (insertRecursive t a) := by
        intro k hk hmem'
        rw [hin] at hmem'
        rcases (mem_insOrd _).mp hmem' with rfl | hmem'
        · exact (List.nodup_cons.mp hnd).1 hk
        · exact hfresh k (List.mem_cons_of_mem a hk) hmem'
      obtain ⟨h1, h2, h3, h4⟩ := foldl_insert_inv l (insertRecursive t a) hOk'
        hB' hbal' hfresh' (List.nodup_cons.mp hnd).2
      simp only [List.foldl_cons]
      refine ⟨h1, h2, h3, ?_⟩
      rw [hin] at h4
      exact h4.trans (((perm_insOrd a (inorder t)).append_right l).trans
        List.perm_middle.symm)

/-- C3: inserting a sequence of pairwise distinct integers into the empty
tree keeps the BST property and keeps every balance factor in the range
from -1 to 1 after every single insert.  The statement quantifies over an
arbitrary cut of the distinct sequence, so it covers the state after each
insert of the sequence. -/
theorem c3_distinct_inserts_invariants (l₁ l₂ : List Int)
    (h : (l₁ ++ l₂).Nodup) :
    isBST (buildTree l₁) = true ∧ isBalanced (buildTree l₁) = true := by
  have hnd : l₁.Nodup := (List.nodup_append.mp h).1
  obtain ⟨-, h2, h3, -⟩ := foldl_insert_inv l₁ .leaf rfl rfl rfl
    (fun k _ hk => (List.not_mem_nil k) hk) hnd
  exact ⟨h2, h3⟩

/-- Witness for C3 on the concrete distinct sequence 2, 1, 3. -/
theorem c3_distinct_inserts_invariants_witness :
    isBST (buildTree [2, 1, 3]) = true ∧ isBalanced (buildTree [2, 1, 3]) = true :=
  c3_distinct_inserts_invariants [2, 1, 3] [] (by decide)

/-- C8: inserting a set of distinct keys in any order and then deleting
them all in any other order returns the tree to the empty state. -/
theorem c8_insert_delete_round_trip (l l' : List Int) (h1 : l.Nodup)
    (h2 : l.Perm l') :
    List.foldl deleteRecursive (List.foldl insertRecursive Tree.leaf l) l' =
      Tree.leaf := by
  obtain ⟨-, hB, -, hperm⟩ := foldl_insert_inv l .leaf rfl rfl rfl
    (fun k _ hk => (List.not_mem_nil k) hk) h1
  refine foldl_delete_eq_leaf l' _ hB ?_
  have hl : (inorder (List.foldl insertRecursive Tree.leaf l)).Perm l := by
    simpa using hperm
  exact hl.trans h2

/-- Witness for C8 with the keys 1, 2 deleted in the opposite order. -/
theorem c8_insert_delete_round_trip_witness :
    List.foldl deleteRecursive (List.foldl insertRecursive Tree.leaf [1, 2]) [2, 1] =
      Tree.leaf :=
  c8_insert_delete_round_trip [1, 2] [2, 1] (by decide) (by decide)



lemma getD_replicate_nil : ∀ (n i : Nat),
    (List.replicate n ([] : List Int)).getD i [] = []
  | 0, _ => rfl
  | _ + 1, 0 => rfl
  | n + 1, i + 1 => getD_replicate_nil n i

lemma getD_append2 (l1 l2 : List (List Int)) : ∀ (i : Nat),
    (l1 ++ l2).getD i [] =
      if i < l1.length then l1.getD i [] else l2.getD (i - l1.length) [] := by
  induction l1 with
  | nil => intro i; simp
  | cons b l1 ih =>
      intro i
      cases i with
      | zero => simp
      | succ i =>
          rw [List.cons_append, List.getD_cons_succ, ih i]
          simp only [List.length_cons]
          split_ifs with h1 h2 h2
          · rfl
          · omega
          · omega
          · congr 1
            omega

lemma length_padTo (ls : List (List Int)) (lvl : Nat) :
    (padTo ls lvl).length = max (lvl + 1) ls.length := by
  simp [padTo]
  omega

lemma getD_padTo (ls : List (List Int)) (lvl i : Nat) :
    (padTo ls lvl).getD i [] = ls.getD i [] := by
  rw [padTo, getD_append2]
  split_ifs with h
  · rfl
  · rw [getD_replicate_nil]
    exact (List.getD_eq_default _ _ (by omega)).symm

lemma length_appendAt : ∀ (ls : List (List Int)) (n : Nat) (x : Int),
    (appendAt ls n x).length = ls.length
  | [], _, _ => rfl
  | b :: ls, 0, x => rfl
  | b :: ls, n + 1, x => by
      simp [appendAt, length_appendAt ls n x]

lemma getD_appendAt_self : ∀ (ls : List (List Int)) (n : Nat) (x : Int),
    n < ls.length → (appendAt ls n x).getD n [] = ls.getD n [] ++ [x]
  | [], n, x, h => absurd h (by simp)
  | b :: ls, 0, x, _ => rfl
  | b :: ls, n + 1, x, h => by
      simp only [appendAt, List.getD_cons_succ]
      exact getD_appendAt_self ls n x (by simpa using h)

lemma getD_appendAt_ne : ∀ (ls : List (List Int)) (n i : Nat) (x : Int),
    i ≠ n → (appendAt ls n x).getD i [] = ls.getD i []
  | [], _, _, _, _ => rfl
  | b :: ls, 0, 0, x, h => absurd rfl h
  | b :: ls, 0, i + 1, x, h => rfl
  | b :: ls, n + 1, 0, x, h => rfl
  | b :: ls, n + 1, i + 1, x, h => by
      simp only [appendAt, List.getD_cons_succ]
      exact getD_appendAt_ne ls n i x (fun he => h (by rw [he]))

lemma getD_collect : ∀ (t : Tree) (lvl : Nat) (acc : List (List Int)) (i : Nat),
    (collectNodesByLevel t lvl acc).getD i [] =
      acc.getD i [] ++ (if lvl ≤ i then nodesAtDepth t (i - lvl) else [])
  | .leaf, lvl, acc, i => by
      simp only [collectNodesByLevel, nodesAtDepth]
      split_ifs <;> simp
  | .node x l r h, lvl, acc, i => by
      simp only [collectNodesByLevel]
      rw [getD_collect r (lvl + 1) _ i, getD_collect l (lvl + 1) _ i]
      rcases lt_trichotomy i lvl with hlt | heq | hgt
      · rw [getD_appendAt_ne _ _ _ _ (by omega), getD_padTo]
        rw [if_neg (by omega), if_neg (by omega), if_neg (by omega)]
        simp
      · subst heq
        rw [getD_appendAt_self _ _ _ (by rw [length_padTo]; omega), getD_padTo]
        rw [if_neg (by omega), if_neg (by omega), if_pos (le_refl i)]
        simp [nodesAtDepth]
      · rw [getD_appendAt_ne _ _ _ _ (by omega), getD_padTo]
        rw [if_pos (by omega), if_pos (by omega), if_pos (by omega)]
        have hidx : i - lvl = (i - (lvl + 1)) + 1 := by omega
        rw [hidx]
        simp [nodesAtDepth, List.append_assoc]

lemma length_collect : ∀ (t : Tree) (lvl : Nat) (acc : List (List Int)),
    (collectNodesByLevel t lvl acc).length =
      if realHeight t = 0 then acc.length else max acc.length (lvl + realHeight t)
  | .leaf, lvl, acc => by simp [collectNodesByLevel, realHeight]
  | .node x l r h, lvl, acc => by
      simp only [collectNodesByLevel]
      rw [length_collect r, length_collect l, length_appendAt, length_padTo,
        realHeight_node]
      split_ifs <;> omega

/-- Refinement of the level-order collection: the result lists, level by
level, exactly the keys occurring at each depth of the tree. -/
theorem getNodesByLevel_eq (t : Tree) :
    getNodesByLevel t = (List.range (realHeight t)).map (nodesAtDepth t) := by
  cases t with
  | leaf => rfl
  | node x l r h =>
      have hcol : getNodesByLevel (Tree.node x l r h) =
          collectNodesByLevel (Tree.node x l r h) 0 [] := rfl
      apply List.ext_getElem
      · rw [hcol, length_collect]
        simp only [List.length_map, List.length_range, List.length_nil,
          realHeight_node]
        split_ifs <;> omega
      · intro i h1 h2
        rw [← List.getD_eq_getElem _ [] h1, ← List.getD_eq_getElem _ [] h2,
          hcol, getD_collect]
        have h2' : i < realHeight (Tree.node x l r h) := by
          simpa using h2
        rw [List.getD_eq_getElem _ [] h2]
        simp only [List.getElem_map, List.getElem_range, List.getD_nil,
          List.nil_append, if_pos (Nat.zero_le i), Nat.sub_zero]

lemma mem_nodesAtDepth : ∀ (t : Tree) (dp : Nat) (k : Int),
    k ∈ nodesAtDepth t dp → k ∈ inorder t
  | .leaf, _, _, hm => by simp [nodesAtDepth] at hm
  | .node x l r h, 0, k, hm => by
      simp only [nodesAtDepth, List.mem_singleton] at hm
      subst hm
      exact List.mem_append.mpr (Or.inr (List.mem_cons_self k _))
  | .node x l r h, dp + 1, k, hm => by
      rcases List.mem_append.mp hm with hm | hm
      · exact List.mem_append.mpr (Or.inl (mem_nodesAtDepth l dp k hm))
      · exact List.mem_append.mpr
          (Or.inr (List.mem_cons_of_mem x (mem_nodesAtDepth r dp k hm)))

lemma pairwise_nodesAtDepth : ∀ (t : Tree),
    List.Pairwise (fun a b => a < b) (inorder t) →
      ∀ dp, List.Pairwise (fun a b => a < b) (nodesAtDepth t dp)
  | .leaf, _, dp => by simp [nodesAtDepth]
  | .node x l r h, hp, 0 => by simp [nodesAtDepth]
  | .node x l r h, hp, dp + 1 => by
      rw [inorder, List.pairwise_append] at hp
      obtain ⟨hl, hxr, hcross⟩ := hp
      rw [List.pairwise_cons] at hxr
      refine List.pairwise_append.mpr
        ⟨pairwise_nodesAtDepth l hl dp, pairwise_nodesAtDepth r hxr.2 dp, ?_⟩
      intro a ha b hb
      exact hcross a (mem_nodesAtDepth l dp a ha)
        b (List.mem_cons_of_mem x (mem_nodesAtDepth r dp b hb))

/-- C9: the level-order traversal returns one key list per depth, top-down,
with exactly the keys at that depth in left-to-right order and the root as
the only depth-0 key (second and third conjuncts); the embedded traversal
is a pure function, so it cannot mutate the tree.  On the concrete tree
built from 20, 10, 30, 5, 15, 25, 35 it returns the stated levels. -/
theorem c9_level_order_traversal :
    getNodesByLevel (buildTree [20, 10, 30, 5, 15, 25, 35]) =
        [[20], [10, 30], [5, 15, 25, 35]] ∧
      (∀ t : Tree,
        getNodesByLevel t = (List.range (realHeight t)).map (nodesAtDepth t)) ∧
      ∀ (x : Int) (l r : Tree) (h : Nat),
        nodesAtDepth (Tree.node x l r h) 0 = [x] :=
  ⟨by decide, getNodesByLevel_eq, fun _ _ _ _ => rfl⟩

/-- C10: on a tree satisfying the BST property every level returned by the
level-order traversal is strictly increasing left to right, and the
traversal of the empty tree returns the empty list of levels. -/
theorem c10_levels_sorted (t : Tree) (hB : isBST t = true) :
    (∀ lv ∈ getNodesByLevel t, List.Pairwise (fun a b => a < b) lv) ∧
      getNodesByLevel Tree.leaf = ([] : List (List Int)) := by
  refine ⟨?_, rfl⟩
  intro lv hlv
  rw [getNodesByLevel_eq] at hlv
  obtain ⟨dp, -, rfl⟩ := List.mem_map.mp hlv
  exact pairwise_nodesAtDepth t ((isBST_iff_pairwise t).mp hB) dp

/-- Witness for C10 on a concrete balanced BST. -/
theorem c10_levels_sorted_witness :
    (∀ lv ∈ getNodesByLevel (buildTree [2, 1, 3]),
        List.Pairwise (fun a b => a < b) lv) ∧
      getNodesByLevel Tree.leaf = ([] : List (List Int)) :=
  c10_levels_sorted (buildTree [2, 1, 3]) (by decide)


end AVLTree
